import Mathlib

/-
  Verification development for the recoverable-ECDSA signature module
  (src/src/signature.js).

  Embedding conventions:
  * JS Buffers are `List Nat` whose entries are bytes (< 256).
  * JS strings are `List Char` (abbreviated `JString`).
  * `bigi` BigIntegers are `Nat` (the module only handles non-negative r, s).
  * Throwing code is `Except JString`; `Signature.fromString` returns `Option`.
  * The external adapters (ecdsa sign / recoverPubKey / calcPubKeyRecoveryParam,
    RIPEMD-160, PublicKey.fromPoint) are taken as function parameters.
  * JS 32-bit bitwise `&` is modelled exactly (`jsAnd`), including the
    two's-complement behaviour on negative operands.
-/

/-- JS strings as lists of characters. -/
abbrev JString := List Char

/-- Decidable equality for `Except`, so that concrete runs of the embedded
fallible operations can be checked by `decide`. -/
instance exceptDecidableEq {ε α : Type} [DecidableEq ε] [DecidableEq α] :
    DecidableEq (Except ε α) := fun x y =>
  match x, y with
  | .ok a, .ok b =>
    if h : a = b then .isTrue (by rw [h])
    else .isFalse (by intro hc; injection hc; contradiction)
  | .error a, .error b =>
    if h : a = b then .isTrue (by rw [h])
    else .isFalse (by intro hc; injection hc; contradiction)
  | .ok a, .error b => .isFalse (fun hc => Except.noConfusion hc)
  | .error a, .ok b => .isFalse (fun hc => Except.noConfusion hc)

/-- Value of a big-endian digit string in base `B` (used with B = 256 for byte
buffers and B = 58 for base58 digit strings). -/
def digitsToNat (B : Nat) (l : List Nat) : Nat :=
  l.foldl (fun a d => a * B + d) 0

theorem digitsToNat_foldl_acc (B : Nat) (l : List Nat) (a : Nat) :
    l.foldl (fun x d => x * B + d) a = a * B ^ l.length + digitsToNat B l := by
  induction l generalizing a with
  | nil => simp [digitsToNat]
  | cons c t ih =>
    show t.foldl _ (a * B + c) = _
    rw [ih (a * B + c)]
    have hc : digitsToNat B (c :: t) = c * B ^ t.length + digitsToNat B t := by
      show t.foldl _ (0 * B + c) = _
      rw [ih (0 * B + c)]
      ring_nf
    rw [hc]
    simp [List.length_cons]
    ring

theorem digitsToNat_append (B : Nat) (l₁ l₂ : List Nat) :
    digitsToNat B (l₁ ++ l₂) = digitsToNat B l₁ * B ^ l₂.length + digitsToNat B l₂ := by
  unfold digitsToNat
  rw [List.foldl_append, digitsToNat_foldl_acc]
  rfl

theorem digitsToNat_cons (B : Nat) (d : Nat) (t : List Nat) :
    digitsToNat B (d :: t) = d * B ^ t.length + digitsToNat B t := by
  have h := digitsToNat_append B [d] t
  simpa [digitsToNat] using h

theorem digitsToNat_singleton (B d : Nat) : digitsToNat B [d] = d := by
  simp [digitsToNat]

theorem digitsToNat_lt (B : Nat) (l : List Nat)
    (hl : ∀ b ∈ l, b < B) : digitsToNat B l < B ^ l.length := by
  induction l with
  | nil => simp [digitsToNat]
  | cons c t ih =>
    have hc : c < B := hl c (List.mem_cons_self _ _)
    have ht : digitsToNat B t < B ^ t.length :=
      ih (fun b hb => hl b (List.mem_cons_of_mem _ hb))
    rw [digitsToNat_cons]
    calc c * B ^ t.length + digitsToNat B t
        < c * B ^ t.length + B ^ t.length := by omega
      _ = (c + 1) * B ^ t.length := by ring
      _ ≤ B * B ^ t.length := Nat.mul_le_mul_right _ (by omega)
      _ = B ^ (c :: t).length := by rw [List.length_cons]; ring

theorem digitsToNat_replicate_zero (B z : Nat) :
    digitsToNat B (List.replicate z 0) = 0 := by
  induction z with
  | zero => rfl
  | succ n ih => rw [List.replicate_succ, digitsToNat_cons, ih]; ring

/-- Embeds `bigi`'s `n.toBuffer(len)`: big-endian bytes of `n`, zero-padded on
the left to exactly `len` bytes (the module only calls it with values that
fit). -/
def BigInteger.toBuffer : Nat → Nat → List Nat
  | _, 0 => []
  | n, len + 1 => BigInteger.toBuffer (n / 256) len ++ [n % 256]

/-- Embeds `bigi`'s `BigInteger.fromBuffer`: unsigned big-endian interpretation
of a byte buffer. -/
def BigInteger.fromBuffer (l : List Nat) : Nat := digitsToNat 256 l

theorem BigInteger.toBuffer_length (n len : Nat) :
    (BigInteger.toBuffer n len).length = len := by
  induction len generalizing n with
  | zero => rfl
  | succ k ih => simp [BigInteger.toBuffer, ih]

theorem BigInteger.toBuffer_mem (n len : Nat) :
    ∀ b ∈ BigInteger.toBuffer n len, b < 256 := by
  induction len generalizing n with
  | zero => intro b hb; simp [BigInteger.toBuffer] at hb
  | succ k ih =>
    intro b hb
    simp only [BigInteger.toBuffer, List.mem_append, List.mem_singleton] at hb
    rcases hb with hb | hb
    · exact ih _ b hb
    · subst hb; exact Nat.mod_lt _ (by norm_num)

theorem BigInteger.fromBuffer_toBuffer (n len : Nat) :
    BigInteger.fromBuffer (BigInteger.toBuffer n len) = n % 256 ^ len := by
  induction len generalizing n with
  | zero =>
    simp [BigInteger.toBuffer, BigInteger.fromBuffer, digitsToNat, Nat.mod_one]
  | succ k ih =>
    unfold BigInteger.toBuffer
    unfold BigInteger.fromBuffer at ih ⊢
    rw [digitsToNat_append, ih, digitsToNat_singleton, List.length_singleton,
      pow_one, pow_succ, mul_comm (256 ^ k) 256, Nat.mod_mul]
    ring

theorem BigInteger.toBuffer_getD :
    ∀ len n j : Nat, j < len →
      (BigInteger.toBuffer n len).getD j 0 = n / 256 ^ (len - 1 - j) % 256 := by
  intro len
  induction len with
  | zero => intro n j hj; omega
  | succ k ih =>
    intro n j hj
    unfold BigInteger.toBuffer
    rcases Nat.lt_or_ge j k with hjk | hjk
    · have hlen : j < (BigInteger.toBuffer (n / 256) k).length := by
        rw [BigInteger.toBuffer_length]; exact hjk
      rw [List.getD_eq_getElem?_getD, List.getElem?_append_left hlen,
        ← List.getD_eq_getElem?_getD, ih (n / 256) j hjk]
      rw [Nat.div_div_eq_div_mul]
      have hpow : 256 * 256 ^ (k - 1 - j) = 256 ^ (k + 1 - 1 - j) := by
        rw [← pow_succ']
        congr 1
        omega
      rw [hpow]
    · have hj' : j = k := by omega
      rw [hj']
      have hlen : (BigInteger.toBuffer (n / 256) k).length = k :=
        BigInteger.toBuffer_length _ _
      rw [List.getD_eq_getElem?_getD, List.getElem?_append_right (le_of_eq hlen),
        hlen]
      simp only [Nat.sub_self, List.getElem?_cons_zero, Option.getD_some]
      have hz : k + 1 - 1 - k = 0 := by omega
      rw [hz, pow_zero, Nat.div_one]

/-- The signature value type: the `(r, s)` pair and the stored recovery byte
`i` (field names follow the source constructor `Signature(r, s, i)`). -/
structure Signature where
  r : Nat
  s : Nat
  i : Nat
deriving DecidableEq, Repr

/-- Embeds `toBuffer()`: `[i] ++ r.toBuffer(32) ++ s.toBuffer(32)`. -/
def Signature.toBuffer (sig : Signature) : List Nat :=
  sig.i :: (BigInteger.toBuffer sig.r 32 ++ BigInteger.toBuffer sig.s 32)

/-- JS `ToUint32` conversion of an integer. -/
def toUint32 (a : Int) : Nat := (a % (4294967296 : Int)).toNat

/-- JS 32-bit bitwise `&`: both operands converted to 32-bit two's complement,
bitwise AND, result read back as a signed 32-bit integer. -/
def jsAnd (a b : Int) : Int :=
  let r := toUint32 a &&& toUint32 b
  if r < 2147483648 then (r : Int) else (r : Int) - 4294967296

/-- Embeds `Signature.fromBuffer`: requires exactly 65 bytes, reads the
recovery byte, checks `i - 27 == ((i - 27) & 7)` with JS arithmetic, then reads
`r` from bytes 1..32 and `s` from bytes 33..64. -/
def Signature.fromBuffer (buf : List Nat) : Except JString Signature :=
  if buf.length = 65 then
    if ((buf.headD 0 : Int) - 27) = jsAnd ((buf.headD 0 : Int) - 27) 7 then
      Except.ok ⟨BigInteger.fromBuffer ((buf.drop 1).take 32),
                 BigInteger.fromBuffer (buf.drop 33), buf.headD 0⟩
    else Except.error ("Invalid signature parameter".data)
  else Except.error ("Invalid signature length".data)

set_option maxRecDepth 16384 in
/-- The recovery-byte validity test of `fromBuffer` accepts exactly the bytes
27..34. -/
theorem recoveryByte_valid_iff (i : Nat) (hi : i < 256) :
    (((i : Int) - 27) = jsAnd ((i : Int) - 27) 7) ↔ (27 ≤ i ∧ i ≤ 34) := by
  revert hi
  revert i
  decide

theorem Signature.toBuffer_len65 (sig : Signature) : sig.toBuffer.length = 65 := by
  simp [Signature.toBuffer, BigInteger.toBuffer_length]

theorem Signature.toBuffer_bytes_lt (sig : Signature) (hi : sig.i < 256) :
    ∀ b ∈ sig.toBuffer, b < 256 := by
  intro b hb
  simp only [Signature.toBuffer, List.mem_cons, List.mem_append] at hb
  rcases hb with hb | hb | hb
  · subst hb; exact hi
  · exact BigInteger.toBuffer_mem _ _ b hb
  · exact BigInteger.toBuffer_mem _ _ b hb

theorem Signature.toBuffer_drop1_take (sig : Signature) :
    (sig.toBuffer.drop 1).take 32 = BigInteger.toBuffer sig.r 32 := by
  rw [Signature.toBuffer, List.drop_succ_cons, List.drop_zero]
  exact List.take_left' (BigInteger.toBuffer_length _ _)

theorem Signature.toBuffer_drop33 (sig : Signature) :
    sig.toBuffer.drop 33 = BigInteger.toBuffer sig.s 32 := by
  rw [Signature.toBuffer, List.drop_succ_cons]
  exact List.drop_left' (BigInteger.toBuffer_length _ _)

theorem pow256_32 : (256 : Nat) ^ 32 = 2 ^ 256 := by norm_num

/-- Shared round-trip engine: `fromBuffer (toBuffer sig)` succeeds and returns
the same triple whenever `r` and `s` fit in 32 bytes and the stored recovery
byte is in the valid range 27..34. -/
theorem Signature.roundtrip_buffer (sig : Signature) (hr : sig.r < 2 ^ 256)
    (hs : sig.s < 2 ^ 256) (h27 : 27 ≤ sig.i) (h34 : sig.i ≤ 34) :
    Signature.fromBuffer sig.toBuffer = Except.ok sig := by
  have hlen : sig.toBuffer.length = 65 := Signature.toBuffer_len65 sig
  have hhead : sig.toBuffer.headD 0 = sig.i := by
    rw [Signature.toBuffer, List.headD_cons]
  have hvalid : ((sig.i : Int) - 27) = jsAnd ((sig.i : Int) - 27) 7 :=
    (recoveryByte_valid_iff sig.i (by omega)).2 ⟨h27, h34⟩
  unfold Signature.fromBuffer
  rw [if_pos hlen, hhead, if_pos hvalid, Signature.toBuffer_drop1_take,
    Signature.toBuffer_drop33, BigInteger.fromBuffer_toBuffer,
    BigInteger.fromBuffer_toBuffer, pow256_32, Nat.mod_eq_of_lt hr,
    Nat.mod_eq_of_lt hs]

/-- C1: for every Signature S whose r and s are encodable in 32 bytes and
whose stored recoveryId byte is valid (27..34, which covers everything
`sign`/`signHash` produce), `Signature.fromBuffer (S.toBuffer())` returns a
Signature with the same r, s, and recoveryId. -/
theorem c1_toBuffer_fromBuffer_roundtrip (S : Signature) (hr : S.r < 2 ^ 256)
    (hs : S.s < 2 ^ 256) (h27 : 27 ≤ S.i) (h34 : S.i ≤ 34) :
    Signature.fromBuffer S.toBuffer = Except.ok S :=
  Signature.roundtrip_buffer S hr hs h27 h34

/-- Witness for C1 at the concrete signature (r, s, i) = (1, 2, 31). -/
theorem c1_toBuffer_fromBuffer_roundtrip_witness :
    (1 : Nat) < 2 ^ 256 ∧ (2 : Nat) < 2 ^ 256 ∧ (27 ≤ 31 ∧ 31 ≤ 34) ∧
    Signature.fromBuffer (Signature.toBuffer ⟨1, 2, 31⟩) = Except.ok ⟨1, 2, 31⟩ :=
  ⟨by norm_num, by norm_num, by norm_num,
   c1_toBuffer_fromBuffer_roundtrip ⟨1, 2, 31⟩ (by norm_num) (by norm_num)
     (by norm_num) (by norm_num)⟩

/-- C3: for every Signature whose r and s fit in 32 bytes (and whose stored
recovery byte is a byte), `toBuffer()` is exactly 65 bytes: byte 0 is the
recoveryId, bytes 1..32 are the unsigned big-endian zero-padded digits of r,
bytes 33..64 those of s. -/
theorem c3_toBuffer_layout (S : Signature) (hr : S.r < 2 ^ 256)
    (hs : S.s < 2 ^ 256) (hi : S.i < 256) :
    S.toBuffer.length = 65 ∧
    S.toBuffer.getD 0 0 = S.i ∧
    (∀ j, j < 32 → S.toBuffer.getD (1 + j) 0 = S.r / 256 ^ (31 - j) % 256) ∧
    (∀ j, j < 32 → S.toBuffer.getD (33 + j) 0 = S.s / 256 ^ (31 - j) % 256) ∧
    (∀ b ∈ S.toBuffer, b < 256) := by
  refine ⟨Signature.toBuffer_len65 S, ?_, ?_, ?_, Signature.toBuffer_bytes_lt S hi⟩
  · rw [Signature.toBuffer, List.getD_cons_zero]
  · intro j hj
    rw [Signature.toBuffer, Nat.add_comm 1 j, List.getD_cons_succ,
      List.getD_eq_getElem?_getD,
      List.getElem?_append_left (by rw [BigInteger.toBuffer_length]; exact hj),
      ← List.getD_eq_getElem?_getD, BigInteger.toBuffer_getD 32 S.r j hj]
  · intro j hj
    have h33 : 33 + j = (32 + j) + 1 := by omega
    rw [Signature.toBuffer, h33, List.getD_cons_succ,
      List.getD_eq_getElem?_getD,
      List.getElem?_append_right (by rw [BigInteger.toBuffer_length]; omega),
      BigInteger.toBuffer_length, ← List.getD_eq_getElem?_getD]
    have hj' : 32 + j - 32 = j := by omega
    rw [hj', BigInteger.toBuffer_getD 32 S.s j hj]

/-- Witness for C3 at the concrete signature (r, s, i) = (1, 2, 31). -/
theorem c3_toBuffer_layout_witness :
    ((1 : Nat) < 2 ^ 256 ∧ (2 : Nat) < 2 ^ 256 ∧ (31 : Nat) < 256) ∧
    ((Signature.toBuffer ⟨1, 2, 31⟩).length = 65 ∧
     (Signature.toBuffer ⟨1, 2, 31⟩).getD 0 0 = 31) :=
  ⟨⟨by norm_num, by norm_num, by norm_num⟩,
   ⟨(c3_toBuffer_layout ⟨1, 2, 31⟩ (by norm_num) (by norm_num) (by norm_num)).1,
    (c3_toBuffer_layout ⟨1, 2, 31⟩ (by norm_num) (by norm_num) (by norm_num)).2.1⟩⟩

/-- C5: `fromBuffer` fails on any byte buffer that is not exactly 65 bytes;
on a 65-byte buffer it fails unless the leading byte is in 27..34 (the JS test
`i - 27 == ((i - 27) & 7)`); on success it returns recoveryId = byte 0,
r = unsigned big-endian of bytes 1..32, s = unsigned big-endian of
bytes 33..64. -/
theorem c5_fromBuffer_spec (buf : List Nat) (hb : ∀ b ∈ buf, b < 256) :
    (buf.length ≠ 65 → ∃ e, Signature.fromBuffer buf = Except.error e) ∧
    (buf.length = 65 → ¬(27 ≤ buf.headD 0 ∧ buf.headD 0 ≤ 34) →
      ∃ e, Signature.fromBuffer buf = Except.error e) ∧
    (buf.length = 65 → 27 ≤ buf.headD 0 → buf.headD 0 ≤ 34 →
      Signature.fromBuffer buf =
        Except.ok ⟨BigInteger.fromBuffer ((buf.drop 1).take 32),
                   BigInteger.fromBuffer (buf.drop 33), buf.headD 0⟩) := by
  refine ⟨?_, ?_, ?_⟩
  · intro hne
    unfold Signature.fromBuffer
    rw [if_neg hne]
    exact ⟨_, rfl⟩
  · intro h65 hnot
    have hhead : buf.headD 0 < 256 := by
      cases buf with
      | nil => simp at h65
      | cons b t => exact hb b (List.mem_cons_self _ _)
    have hcond : ¬(((buf.headD 0 : Int) - 27) =
        jsAnd ((buf.headD 0 : Int) - 27) 7) := fun hc =>
      hnot ((recoveryByte_valid_iff _ hhead).1 hc)
    unfold Signature.fromBuffer
    rw [if_pos h65, if_neg hcond]
    exact ⟨_, rfl⟩
  · intro h65 h27 h34
    have hhead : buf.headD 0 < 256 := by
      cases buf with
      | nil => simp at h65
      | cons b t => exact hb b (List.mem_cons_self _ _)
    have hcond : ((buf.headD 0 : Int) - 27) =
        jsAnd ((buf.headD 0 : Int) - 27) 7 :=
      (recoveryByte_valid_iff _ hhead).2 ⟨h27, h34⟩
    unfold Signature.fromBuffer
    rw [if_pos h65, if_pos hcond]

/-- Witness for C5: the all-zero 64-byte buffer is rejected (wrong length),
and a valid 65-byte buffer starting with byte 31 is accepted. -/
theorem c5_fromBuffer_spec_witness :
    (∀ b ∈ List.replicate 64 (0 : Nat), b < 256) ∧
    (∃ e, Signature.fromBuffer (List.replicate 64 0) = Except.error e) ∧
    Signature.fromBuffer ((31 : Nat) :: List.replicate 64 0) =
      Except.ok ⟨BigInteger.fromBuffer
                   ((((31 : Nat) :: List.replicate 64 0).drop 1).take 32),
                 BigInteger.fromBuffer (((31 : Nat) :: List.replicate 64 0).drop 33),
                 ((31 : Nat) :: List.replicate 64 0).headD 0⟩ :=
  ⟨by decide,
   (c5_fromBuffer_spec (List.replicate 64 0) (by decide)).1 (by decide),
   (c5_fromBuffer_spec ((31 : Nat) :: List.replicate 64 0) (by decide)).2.2
     (by decide) (by decide) (by decide)⟩

/-- For a non-negative operand, the JS 32-bit AND with 3 agrees with the plain
low-two-bits mask `n &&& 3 = n % 4`. -/
theorem jsAnd_three (n : Nat) : jsAnd (n : Int) 3 = ((n &&& 3 : Nat) : Int) := by
  have hmask : ∀ m : Nat, m &&& 3 = m % 4 := by
    intro m
    have h3 : (3 : Nat) = 2 ^ 2 - 1 := rfl
    rw [h3, Nat.and_pow_two_sub_one_eq_mod]
  have hu : toUint32 (n : Int) = n % 4294967296 := by
    unfold toUint32
    norm_cast
  have hu3 : toUint32 (3 : Int) = 3 := rfl
  simp only [jsAnd, hu, hu3, hmask]
  have hmm : n % 4294967296 % 4 = n % 4 :=
    Nat.mod_mod_of_dvd n (by norm_num)
  rw [hmm, if_pos (by omega)]

/-- Embeds `recoverHash`: checks the 32-byte digest, forms the scalar `e`,
un-offsets the stored recovery byte with JS arithmetic (`i -= 27; i &= 3`),
calls the curve adapter's `recoverPubKey`, and wraps the point with
`PublicKey.fromPoint`.  The curve adapter and key constructor are
parameters. -/
def Signature.recoverHash {Point PubKey : Type}
    (recoverPubKey : Nat → Signature → Int → Point)
    (fromPoint : Point → PubKey)
    (sig : Signature) (dataSha256 : List Nat) : Except JString PubKey :=
  if dataSha256.length = 32 then
    Except.ok (fromPoint (recoverPubKey (BigInteger.fromBuffer dataSha256) sig
      (jsAnd ((sig.i : Int) - 27) 3)))
  else Except.error ("dataSha256: 32 byte String or buffer requred".data)

/-- C6: for any stored recoveryId ≥ 27 and 32-byte digest, `recoverHash`
passes exactly `(i - 27) & 3` (drop the 27 offset, mask to the low two bits,
discarding the +4 compressed flag) to the adapter's `recoverPubKey`, and wraps
the resulting point with `PublicKey.fromPoint`. -/
theorem c6_recoverHash_param {Point PubKey : Type}
    (recoverPubKey : Nat → Signature → Int → Point)
    (fromPoint : Point → PubKey)
    (sig : Signature) (d : List Nat)
    (h27 : 27 ≤ sig.i) (hd : d.length = 32) :
    Signature.recoverHash recoverPubKey fromPoint sig d =
      Except.ok (fromPoint (recoverPubKey (BigInteger.fromBuffer d) sig
        ((((sig.i - 27) &&& 3 : Nat)) : Int))) := by
  unfold Signature.recoverHash
  rw [if_pos hd]
  have hsub : (sig.i : Int) - 27 = ((sig.i - 27 : Nat) : Int) := by omega
  rw [hsub, jsAnd_three]

/-- Witness for C6 with a trivial concrete curve adapter. -/
theorem c6_recoverHash_param_witness :
    (27 ≤ (Signature.mk 1 2 31).i ∧ (List.replicate 32 (0 : Nat)).length = 32) ∧
    Signature.recoverHash (fun e sg p => e + sg.r + p.toNat) (fun q => q)
        ⟨1, 2, 31⟩ (List.replicate 32 0) =
      Except.ok ((fun q : Nat => q)
        ((fun e sg p => e + sg.r + p.toNat)
          (BigInteger.fromBuffer (List.replicate 32 0)) (⟨1, 2, 31⟩ : Signature)
          ((((Signature.mk 1 2 31).i - 27) &&& 3 : Nat) : Int))) :=
  ⟨⟨by norm_num, by simp⟩,
   c6_recoverHash_param (fun e sg p => e + sg.r + p.toNat) (fun q => q)
     ⟨1, 2, 31⟩ (List.replicate 32 0) (by norm_num) (by simp)⟩

/-- Minimal big-endian digit string of `n` in base `B` (empty for 0), computed
with explicit fuel so that it is structural and kernel-evaluable.  Used with
B = 256 for minimal byte strings and B = 58 for base58 digit strings. -/
def natToDigitsGo (B : Nat) : Nat → Nat → List Nat
  | 0, _ => []
  | fuel + 1, n => if n = 0 then [] else natToDigitsGo B fuel (n / B) ++ [n % B]

/-- Minimal big-endian digit string of `n` in base `B` (`[]` for 0): `n` itself
is always enough fuel. -/
def natToDigits (B n : Nat) : List Nat := natToDigitsGo B n n

theorem natToDigitsGo_zero (B : Nat) : ∀ fuel, natToDigitsGo B fuel 0 = [] := by
  intro fuel
  cases fuel with
  | zero => rfl
  | succ k => simp [natToDigitsGo]

theorem natToDigitsGo_congr (B : Nat) (hB : 2 ≤ B) :
    ∀ f₁ f₂ n : Nat, n ≤ f₁ → n ≤ f₂ →
      natToDigitsGo B f₁ n = natToDigitsGo B f₂ n := by
  intro f₁
  induction f₁ with
  | zero =>
    intro f₂ n h1 _
    have hn : n = 0 := by omega
    subst hn
    rw [natToDigitsGo_zero, natToDigitsGo_zero]
  | succ k ih =>
    intro f₂ n h1 h2
    by_cases hn : n = 0
    · subst hn
      rw [natToDigitsGo_zero, natToDigitsGo_zero]
    · cases f₂ with
      | zero => omega
      | succ k₂ =>
        simp only [natToDigitsGo, if_neg hn]
        have hdiv : n / B < n := Nat.div_lt_self (by omega) (by omega)
        rw [ih k₂ (n / B) (by omega) (by omega)]

theorem digitsToNat_natToDigitsGo (B : Nat) (hB : 2 ≤ B) :
    ∀ fuel n : Nat, n ≤ fuel → digitsToNat B (natToDigitsGo B fuel n) = n := by
  intro fuel
  induction fuel with
  | zero =>
    intro n h1
    have hn : n = 0 := by omega
    subst hn
    rfl
  | succ k ih =>
    intro n h1
    by_cases hn : n = 0
    · subst hn
      rw [natToDigitsGo_zero]
      rfl
    · simp only [natToDigitsGo, if_neg hn]
      have hdiv : n / B < n := Nat.div_lt_self (by omega) (by omega)
      rw [digitsToNat_append, ih (n / B) (by omega), digitsToNat_singleton,
        List.length_singleton, pow_one, mul_comm]
      exact Nat.div_add_mod n B

theorem natToDigitsGo_mem (B : Nat) (hB : 2 ≤ B) :
    ∀ fuel n d : Nat, d ∈ natToDigitsGo B fuel n → d < B := by
  intro fuel
  induction fuel with
  | zero => intro n d hd; simp [natToDigitsGo] at hd
  | succ k ih =>
    intro n d hd
    by_cases hn : n = 0
    · subst hn; rw [natToDigitsGo_zero] at hd; simp at hd
    · simp only [natToDigitsGo, if_neg hn, List.mem_append,
        List.mem_singleton] at hd
      rcases hd with hd | hd
      · exact ih _ _ hd
      · subst hd; exact Nat.mod_lt _ (by omega)

theorem natToDigitsGo_ne_nil (B : Nat) :
    ∀ fuel n : Nat, 0 < n → n ≤ fuel → natToDigitsGo B fuel n ≠ [] := by
  intro fuel n h1 h2
  cases fuel with
  | zero => omega
  | succ k =>
    simp only [natToDigitsGo, if_neg (by omega : ¬ n = 0)]
    exact List.append_ne_nil_of_right_ne_nil _ (by simp)

theorem natToDigitsGo_head (B : Nat) (hB : 2 ≤ B) :
    ∀ fuel n : Nat, 0 < n → n ≤ fuel →
      ∃ d, (natToDigitsGo B fuel n).head? = some d ∧ 0 < d ∧ d < B := by
  intro fuel
  induction fuel with
  | zero => intro n h1 h2; omega
  | succ k ih =>
    intro n h1 h2
    simp only [natToDigitsGo, if_neg (by omega : ¬ n = 0)]
    by_cases hq : n / B = 0
    · rw [hq, natToDigitsGo_zero]
      have hnB : n < B := (Nat.div_eq_zero_iff (by omega)).1 hq
      refine ⟨n % B, ?_, ?_, Nat.mod_lt _ (by omega)⟩
      · simp
      · rw [Nat.mod_eq_of_lt hnB]; exact h1
    · have hdiv : n / B < n := Nat.div_lt_self (by omega) (by omega)
      obtain ⟨d, hd, hd0, hdB⟩ := ih (n / B) (Nat.pos_of_ne_zero hq) (by omega)
      refine ⟨d, ?_, hd0, hdB⟩
      rw [List.head?_append, hd]
      rfl

theorem digitsToNat_natToDigits (B : Nat) (hB : 2 ≤ B) (n : Nat) :
    digitsToNat B (natToDigits B n) = n :=
  digitsToNat_natToDigitsGo B hB n n (Nat.le_refl n)

theorem natToDigits_mem (B : Nat) (hB : 2 ≤ B) (n : Nat) :
    ∀ d ∈ natToDigits B n, d < B := fun d hd => natToDigitsGo_mem B hB n n d hd

theorem natToDigits_head (B : Nat) (hB : 2 ≤ B) (n : Nat) (hn : 0 < n) :
    ∃ d, (natToDigits B n).head? = some d ∧ 0 < d ∧ d < B :=
  natToDigitsGo_head B hB n n hn (Nat.le_refl n)

theorem natToDigits_lt_pow (B : Nat) (hB : 2 ≤ B) (n : Nat) :
    n < B ^ (natToDigits B n).length := by
  conv_lhs => rw [← digitsToNat_natToDigits B hB n]
  exact digitsToNat_lt B _ (natToDigits_mem B hB n)

/-- Inverse round-trip: a digit string with no leading zero digit is recovered
exactly by `natToDigits` from its value. -/
theorem natToDigits_digitsToNat (B : Nat) (hB : 2 ≤ B) :
    ∀ l : List Nat, (∀ b ∈ l, b < B) → l.head? ≠ some 0 →
      natToDigits B (digitsToNat B l) = l := by
  intro l
  induction l using List.reverseRecOn with
  | nil => intro _ _; rfl
  | append_singleton t b ih =>
    intro hmem hhead
    have hb : b < B := hmem b (by simp)
    cases t with
    | nil =>
      have hb0 : 0 < b := by
        simp only [List.nil_append, List.head?_cons, ne_eq,
          Option.some.injEq] at hhead
        omega
      show natToDigits B (digitsToNat B [b]) = [b]
      rw [digitsToNat_singleton]
      unfold natToDigits
      obtain ⟨m, hm⟩ : ∃ m, b = m + 1 := ⟨b - 1, by omega⟩
      rw [hm]
      simp only [natToDigitsGo, if_neg (by omega : ¬ m + 1 = 0)]
      rw [← hm, Nat.div_eq_of_lt hb, natToDigitsGo_zero,
        Nat.mod_eq_of_lt hb]
      rfl
    | cons a t' =>
      have hhead' : (a :: t').head? ≠ some 0 := by
        simpa using hhead
      have ha : 0 < a := by
        simp only [List.head?_cons, ne_eq, Option.some.injEq] at hhead'
        omega
      have hmem' : ∀ x ∈ a :: t', x < B := fun x hx =>
        hmem x (List.mem_append_left _ hx)
      have hrec := ih hmem' hhead'
      set v := digitsToNat B (a :: t') with hvdef
      have hv : 0 < v := by
        rw [hvdef, digitsToNat_cons]
        have hp : 0 < B ^ t'.length := Nat.pos_pow_of_pos _ (by omega)
        have hle : 1 * B ^ t'.length ≤ a * B ^ t'.length :=
          Nat.mul_le_mul_right _ ha
        omega
      have hval : digitsToNat B ((a :: t') ++ [b]) = v * B + b := by
        rw [digitsToNat_append, digitsToNat_singleton, List.length_singleton,
          pow_one, hvdef]
      rw [hval]
      have hvB : v + 1 ≤ v * B := by
        have h2v : v * 2 ≤ v * B := Nat.mul_le_mul_left v hB
        omega
      obtain ⟨m, hm⟩ : ∃ m, v * B + b = m + 1 := ⟨v * B + b - 1, by omega⟩
      unfold natToDigits
      rw [hm]
      simp only [natToDigitsGo, if_neg (by omega : ¬ m + 1 = 0)]
      rw [← hm]
      have hdivb : (v * B + b) / B = v := by
        have hc : v * B + b = b + B * v := by ring
        rw [hc, Nat.add_mul_div_left _ _ (by omega : 0 < B),
          Nat.div_eq_of_lt hb]
        omega
      have hmodb : (v * B + b) % B = b := by
        have hc : v * B + b = b + B * v := by ring
        rw [hc, Nat.add_mul_mod_self_left, Nat.mod_eq_of_lt hb]
      rw [hdivb, hmodb]
      have hvm : v ≤ m := by omega
      rw [natToDigitsGo_congr B hB m v v hvm (Nat.le_refl v)]
      rw [show natToDigitsGo B v v = natToDigits B v from rfl, hrec]

/-- Minimal unsigned big-endian byte string of a non-negative integer
(empty for 0). -/
def natToMinBytes (n : Nat) : List Nat := natToDigits 256 n

/-- Modelled from the spec: the DER serialisation used by the repository's
`ecsignature.js` (a repo file not under src/) whose output `signHash` inspects.
A DER INTEGER's content bytes are the minimal big-endian form, with a leading
0x00 prepended when the top bit of the first byte is set (§4.1: "canonical
fixed-length DER-equivalent encoding"), and [0x00] for zero. -/
def toDERInteger (n : Nat) : List Nat :=
  if natToMinBytes n = [] then [0]
  else if 128 ≤ (natToMinBytes n).headD 0 then 0 :: natToMinBytes n
  else natToMinBytes n

/-- Modelled from the spec: `ecsignature.toDER()` layout
`0x30 len 0x02 lenR rBytes 0x02 lenS sBytes`; `signHash` reads `der[3]`
(= lenR) and `der[5 + lenR]` (= lenS). -/
def ECSignature.toDER (r s : Nat) : List Nat :=
  48 :: ((toDERInteger r).length + (toDERInteger s).length + 4) :: 2 ::
    (toDERInteger r).length ::
    (toDERInteger r ++ (2 :: (toDERInteger s).length :: toDERInteger s))

theorem ECSignature.toDER_getD3 (r s : Nat) :
    (ECSignature.toDER r s).getD 3 0 = (toDERInteger r).length := by
  unfold ECSignature.toDER
  rw [List.getD_cons_succ, List.getD_cons_succ, List.getD_cons_succ,
    List.getD_cons_zero]

theorem ECSignature.toDER_getD5 (r s : Nat) :
    (ECSignature.toDER r s).getD (5 + (toDERInteger r).length) 0 =
      (toDERInteger s).length := by
  unfold ECSignature.toDER
  have h5 : 5 + (toDERInteger r).length =
      ((((1 + (toDERInteger r).length) + 1) + 1) + 1) + 1 := by omega
  rw [h5, List.getD_cons_succ, List.getD_cons_succ, List.getD_cons_succ,
    List.getD_cons_succ, List.getD_eq_getElem?_getD,
    List.getElem?_append_right (Nat.le_add_left _ 1)]
  have h1 : 1 + (toDERInteger r).length - (toDERInteger r).length = 1 := by
    omega
  rw [h1]
  simp

/-- Embeds the `while (true)` nonce-retry loop of `Signature.signHash`, with
explicit fuel; `sgn nonce` stands for `ecdsa.sign(curve, dataSha256, d, nonce)`
and `calcPubKeyRecoveryParam` for
`ecdsa.calcPubKeyRecoveryParam(curve, e, ecsignature, Q)`.  The loop exits
only when both DER component lengths, read as `der[3]` and `der[5 + lenR]`,
equal 32; it then stores `i = param + 4 + 27`. -/
def ecdsaSignLoop (sgn : Nat → Nat × Nat)
    (calcPubKeyRecoveryParam : Nat → Nat → Nat) : Nat → Nat → Option Signature
  | 0, _ => none
  | fuel + 1, nonce =>
    if (ECSignature.toDER (sgn nonce).1 (sgn nonce).2).getD 3 0 = 32 ∧
       (ECSignature.toDER (sgn nonce).1 (sgn nonce).2).getD
         (5 + (ECSignature.toDER (sgn nonce).1 (sgn nonce).2).getD 3 0) 0 = 32
    then some ⟨(sgn nonce).1, (sgn nonce).2,
               calcPubKeyRecoveryParam (sgn nonce).1 (sgn nonce).2 + 4 + 27⟩
    else ecdsaSignLoop sgn calcPubKeyRecoveryParam fuel (nonce + 1)

/-- Embeds `Signature.signHash`: 32-byte digest check, then the nonce-retry
loop starting at nonce 0. -/
def Signature.signHash (sgn : Nat → Nat × Nat)
    (calcPubKeyRecoveryParam : Nat → Nat → Nat) (fuel : Nat)
    (dataSha256 : List Nat) : Except JString (Option Signature) :=
  if dataSha256.length = 32 then
    Except.ok (ecdsaSignLoop sgn calcPubKeyRecoveryParam fuel 0)
  else Except.error ("dataSha256: 32 byte buffer requred".data)

theorem ecdsaSignLoop_some (sgn : Nat → Nat × Nat) (cp : Nat → Nat → Nat) :
    ∀ fuel nonce S, ecdsaSignLoop sgn cp fuel nonce = some S →
      (toDERInteger S.r).length = 32 ∧ (toDERInteger S.s).length = 32 ∧
      S.i = cp S.r S.s + 4 + 27 := by
  intro fuel
  induction fuel with
  | zero => intro nonce S h; simp [ecdsaSignLoop] at h
  | succ k ih =>
    intro nonce S h
    rw [ecdsaSignLoop] at h
    split at h
    · rename_i hcond
      obtain ⟨hc1, hc2⟩ := hcond
      rw [ECSignature.toDER_getD3] at hc1
      rw [ECSignature.toDER_getD3, ECSignature.toDER_getD5] at hc2
      injection h with h
      subst h
      exact ⟨hc1, hc2, rfl⟩
    · exact ih (nonce + 1) S h

theorem toDERInteger_length_32_lt (n : Nat) (h : (toDERInteger n).length = 32) :
    n < 2 ^ 256 := by
  unfold toDERInteger at h
  by_cases h0 : natToMinBytes n = []
  · rw [if_pos h0] at h
    simp at h
  · rw [if_neg h0] at h
    by_cases h128 : 128 ≤ (natToMinBytes n).headD 0
    · rw [if_pos h128] at h
      simp only [List.length_cons] at h
      have h31 : (natToMinBytes n).length = 31 := by omega
      have hlt : n < 256 ^ (natToMinBytes n).length :=
        natToDigits_lt_pow 256 (by norm_num) n
      rw [h31] at hlt
      calc n < 256 ^ 31 := hlt
        _ ≤ 2 ^ 256 := by norm_num
    · rw [if_neg h128] at h
      have hlt : n < 256 ^ (natToMinBytes n).length :=
        natToDigits_lt_pow 256 (by norm_num) n
      rw [h] at hlt
      calc n < 256 ^ 32 := hlt
        _ ≤ 2 ^ 256 := by norm_num

/-- C4: any signature produced by `signHash` (for any digest and any curve
adapter whose recovery parameter is 0..3) has DER component lengths lenR =
lenS = 32 (the retry loop exits only on that condition), so r and s fit in 32
big-endian bytes, and its stored recoveryId is `param + 4 + 27`, hence in
31..34. -/
theorem c4_signHash_canonical (sgn : Nat → Nat × Nat) (cp : Nat → Nat → Nat)
    (fuel : Nat) (d : List Nat) (S : Signature)
    (hcp : ∀ a b, cp a b ≤ 3)
    (h : Signature.signHash sgn cp fuel d = Except.ok (some S)) :
    (toDERInteger S.r).length = 32 ∧ (toDERInteger S.s).length = 32 ∧
    S.r < 2 ^ 256 ∧ S.s < 2 ^ 256 ∧
    S.i = cp S.r S.s + 4 + 27 ∧ 31 ≤ S.i ∧ S.i ≤ 34 := by
  unfold Signature.signHash at h
  by_cases hd : d.length = 32
  · rw [if_pos hd] at h
    injection h with h
    obtain ⟨h1, h2, h3⟩ := ecdsaSignLoop_some sgn cp fuel 0 S h
    have hcpS := hcp S.r S.s
    exact ⟨h1, h2, toDERInteger_length_32_lt _ h1,
      toDERInteger_length_32_lt _ h2, h3, by omega, by omega⟩
  · rw [if_neg hd] at h
    exact absurd h (by simp)

/-- Witness for C4: one loop iteration with a concrete adapter returning
(2^250, 2^250) — both DER lengths are 32 — and recovery parameter 0. -/
theorem c4_signHash_canonical_witness :
    (∀ a b : Nat, (fun _ _ : Nat => 0) a b ≤ 3) ∧
    Signature.signHash (fun _ => (2 ^ 250, 2 ^ 250)) (fun _ _ => 0) 1
        (List.replicate 32 0) = Except.ok (some ⟨2 ^ 250, 2 ^ 250, 31⟩) ∧
    ((toDERInteger (Signature.mk (2 ^ 250) (2 ^ 250) 31).r).length = 32 ∧
     (toDERInteger (Signature.mk (2 ^ 250) (2 ^ 250) 31).s).length = 32 ∧
     (Signature.mk (2 ^ 250) (2 ^ 250) 31).r < 2 ^ 256 ∧
     (Signature.mk (2 ^ 250) (2 ^ 250) 31).s < 2 ^ 256 ∧
     (Signature.mk (2 ^ 250) (2 ^ 250) 31).i =
       (fun _ _ : Nat => 0) (Signature.mk (2 ^ 250) (2 ^ 250) 31).r
         (Signature.mk (2 ^ 250) (2 ^ 250) 31).s + 4 + 27 ∧
     31 ≤ (Signature.mk (2 ^ 250) (2 ^ 250) 31).i ∧
     (Signature.mk (2 ^ 250) (2 ^ 250) 31).i ≤ 34) :=
  ⟨fun a b => Nat.zero_le 3, by decide,
   c4_signHash_canonical (fun _ => (2 ^ 250, 2 ^ 250)) (fun _ _ => 0) 1
     (List.replicate 32 0) ⟨2 ^ 250, 2 ^ 250, 31⟩ (fun a b => Nat.zero_le 3)
     (by decide)⟩

/-- The bitcoin base58 alphabet used by the `bs58` dependency. -/
def base58Alphabet : List Char :=
  "123456789ABCDEFGHJKLMNPQRSTUVWXYZabcdefghijkmnopqrstuvwxyz".data

/-- Digit-to-character table lookup of `bs58` encode. -/
def b58DigitChar (d : Nat) : Char := base58Alphabet.getD d '?'

/-- Character-to-digit lookup of `bs58` decode (`none` on a character outside
the alphabet, which makes `bs58.decode` throw). -/
def b58CharVal (c : Char) : Option Nat :=
  if base58Alphabet.indexOf c < 58 then some (base58Alphabet.indexOf c)
  else none

/-- Number of leading zero bytes (encoded by `bs58` as leading `'1'`s). -/
def countLeadZeroBytes : List Nat → Nat
  | [] => 0
  | b :: t => if b = 0 then countLeadZeroBytes t + 1 else 0

/-- Number of leading `'1'` characters (decoded by `bs58` as zero bytes). -/
def countLeadOnes : JString → Nat
  | [] => 0
  | c :: t => if c = '1' then countLeadOnes t + 1 else 0

/-- Embeds `base58.encode`: one `'1'` per leading zero byte, then the base58
digits of the value of the byte string. -/
def base58encode (l : List Nat) : JString :=
  List.replicate (countLeadZeroBytes l) '1' ++
    (natToDigits 58 (digitsToNat 256 l)).map b58DigitChar

/-- Embeds `base58.decode`: rejects characters outside the alphabet, maps
leading `'1'`s to zero bytes and the remaining value to its minimal byte
string. -/
def base58decode (s : JString) : Except JString (List Nat) :=
  if s.all (fun c => (b58CharVal c).isSome) then
    Except.ok (List.replicate (countLeadOnes s) 0 ++
      natToMinBytes (digitsToNat 58 (s.filterMap b58CharVal)))
  else Except.error ("Non-base58 character".data)

theorem b58CharVal_one : b58CharVal '1' = some 0 := by decide

theorem b58_inv : ∀ d, d < 58 → b58CharVal (b58DigitChar d) = some d := by
  decide

theorem b58DigitChar_ne_one : ∀ d, d < 58 → 0 < d → b58DigitChar d ≠ '1' := by
  decide

theorem countLeadZeroBytes_decomp :
    ∀ l : List Nat,
      List.replicate (countLeadZeroBytes l) 0 ++
        l.drop (countLeadZeroBytes l) = l := by
  intro l
  induction l with
  | nil => rfl
  | cons b t ih =>
    by_cases hb : b = 0
    · subst hb
      simp only [countLeadZeroBytes, if_true, List.replicate_succ,
        List.cons_append, List.drop_succ_cons, List.cons.injEq, true_and]
      exact ih
    · simp [countLeadZeroBytes, hb]

theorem countLeadZeroBytes_drop_head :
    ∀ l : List Nat, (l.drop (countLeadZeroBytes l)).head? ≠ some 0 := by
  intro l
  induction l with
  | nil => simp
  | cons b t ih =>
    by_cases hb : b = 0
    · subst hb
      simp only [countLeadZeroBytes, if_true, List.drop_succ_cons]
      exact ih
    · simp only [countLeadZeroBytes, if_neg hb, List.drop_zero,
        List.head?_cons, ne_eq, Option.some.injEq]
      exact hb

theorem countLeadOnes_replicate_append (z : Nat) (t : JString) :
    countLeadOnes (List.replicate z '1' ++ t) = z + countLeadOnes t := by
  induction z with
  | zero => simp
  | succ k ih =>
    rw [List.replicate_succ, List.cons_append]
    simp only [countLeadOnes, if_true, ih]
    omega

theorem countLeadOnes_replicate (z : Nat) :
    countLeadOnes (List.replicate z '1') = z := by
  have h := countLeadOnes_replicate_append z []
  simpa [countLeadOnes] using h

theorem filterMap_b58_replicate_one (z : Nat) :
    (List.replicate z '1').filterMap b58CharVal = List.replicate z 0 := by
  induction z with
  | zero => rfl
  | succ k ih =>
    rw [List.replicate_succ, List.replicate_succ, List.filterMap_cons,
      b58CharVal_one, ih]

theorem filterMap_b58_map_digits :
    ∀ ds : List Nat, (∀ d ∈ ds, d < 58) →
      (ds.map b58DigitChar).filterMap b58CharVal = ds := by
  intro ds
  induction ds with
  | nil => intro _; rfl
  | cons d t ih =>
    intro hmem
    rw [List.map_cons, List.filterMap_cons,
      b58_inv d (hmem d (List.mem_cons_self _ _)),
      ih (fun x hx => hmem x (List.mem_cons_of_mem _ hx))]

theorem all_b58_encode (l : List Nat) :
    (base58encode l).all (fun c => (b58CharVal c).isSome) = true := by
  unfold base58encode
  rw [List.all_append, Bool.and_eq_true]
  constructor
  · rw [List.all_eq_true]
    intro c hc
    rw [List.eq_of_mem_replicate hc, b58CharVal_one]
    rfl
  · rw [List.all_eq_true]
    intro c hc
    obtain ⟨d, hd, hdc⟩ := List.mem_map.1 hc
    have hd58 : d < 58 := natToDigits_mem 58 (by norm_num) _ d hd
    rw [← hdc, b58_inv d hd58]
    rfl

theorem countLeadOnes_encode_digits (z n : Nat) :
    countLeadOnes (List.replicate z '1' ++
      (natToDigits 58 n).map b58DigitChar) = z := by
  by_cases hn : n = 0
  · subst hn
    rw [show natToDigits 58 0 = ([] : List Nat) from rfl]
    simpa using countLeadOnes_replicate z
  · obtain ⟨d, hd, hd0, hd58⟩ :=
      natToDigits_head 58 (by norm_num) n (Nat.pos_of_ne_zero hn)
    cases hds : natToDigits 58 n with
    | nil => rw [hds] at hd; simp at hd
    | cons d0 dt =>
      rw [hds] at hd
      simp only [List.head?_cons, Option.some.injEq] at hd
      subst hd
      rw [List.map_cons, countLeadOnes_replicate_append]
      simp only [countLeadOnes]
      rw [if_neg (b58DigitChar_ne_one d0 hd58 hd0)]
      omega

/-- `bs58` round-trip: decoding an encoded byte string gives it back. -/
theorem base58decode_encode (l : List Nat) (hl : ∀ b ∈ l, b < 256) :
    base58decode (base58encode l) = Except.ok l := by
  have hdecomp := countLeadZeroBytes_decomp l
  have hresthead := countLeadZeroBytes_drop_head l
  have hrestmem : ∀ b ∈ l.drop (countLeadZeroBytes l), b < 256 :=
    fun b hb => hl b (List.mem_of_mem_drop hb)
  have hn : digitsToNat 256 l =
      digitsToNat 256 (l.drop (countLeadZeroBytes l)) := by
    conv_lhs => rw [← hdecomp]
    rw [digitsToNat_append, digitsToNat_replicate_zero]
    simp
  have henc : base58encode l =
      List.replicate (countLeadZeroBytes l) '1' ++
        (natToDigits 58
          (digitsToNat 256 (l.drop (countLeadZeroBytes l)))).map b58DigitChar := by
    unfold base58encode
    rw [hn]
  unfold base58decode
  rw [if_pos (all_b58_encode l)]
  have hbody : List.replicate (countLeadOnes (base58encode l)) 0 ++
      natToMinBytes (digitsToNat 58
        ((base58encode l).filterMap b58CharVal)) = l := by
    rw [henc, countLeadOnes_encode_digits, List.filterMap_append,
      filterMap_b58_replicate_one,
      filterMap_b58_map_digits _ (natToDigits_mem 58 (by norm_num) _),
      digitsToNat_append, digitsToNat_replicate_zero,
      digitsToNat_natToDigits 58 (by norm_num)]
    simp only [zero_mul, zero_add]
    unfold natToMinBytes
    rw [natToDigits_digitsToNat 256 (by norm_num) _ hrestmem hresthead,
      hdecomp]
  rw [hbody]

/-- Lowercase hex digits used by `Buffer.toString('hex')`. -/
def hexDigitChars : List Char := "0123456789abcdef".data

/-- Embeds `Buffer.prototype.toString('hex')`: two lowercase hex characters
per byte. -/
def bufToHex : List Nat → JString
  | [] => []
  | b :: t => hexDigitChars.getD (b / 16) '?' ::
      hexDigitChars.getD (b % 16) '?' :: bufToHex t

/-- JS `buf.slice(-n)` on byte buffers: the last `n` bytes (the whole buffer
when shorter). -/
def lastN (n : Nat) (l : List Nat) : List Nat := l.drop (l.length - n)

/-- JS `buf.slice(0, -n)` on byte buffers: all but the last `n` bytes (empty
when shorter). -/
def dropLastN (n : Nat) (l : List Nat) : List Nat := l.take (l.length - n)

/-- Embeds `toString(prefix)` together with the instance's `signatureCache`
slot: on a cache hit it returns `prefix + cache`; on a miss it computes
`base58(toBuffer ‖ ripemd160(toBuffer)[0..3])`, stores it, and prepends the
prefix.  Returns the produced string and the updated cache. -/
def Signature.toString (rip : List Nat → List Nat) (sig : Signature)
    (signatureCache : Option JString) (pfx : JString) :
    JString × Option JString :=
  match signatureCache with
  | some c => (pfx ++ c, some c)
  | none =>
    (pfx ++ base58encode (sig.toBuffer ++ (rip sig.toBuffer).take 4),
     some (base58encode (sig.toBuffer ++ (rip sig.toBuffer).take 4)))

/-- A sequence of `toString` calls on one instance, threading the memoised
cache from call to call; returns the produced strings. -/
def Signature.toStringRuns (rip : List Nat → List Nat) (sig : Signature) :
    Option JString → List JString → List JString
  | _, [] => []
  | cache, p :: ps =>
    (Signature.toString rip sig cache p).1 ::
      Signature.toStringRuns rip sig (Signature.toString rip sig cache p).2 ps

/-- Embeds `Signature.fromStringOrThrow`: asserts the literal prefix (note the
source's template interpolates `prefix` twice, so the message repeats the
expected prefix), base58-decodes the rest, splits off and checks the 4-byte
RIPEMD-160 checksum (compared as hex strings), then delegates to
`fromBuffer`. -/
def Signature.fromStringOrThrow (rip : List Nat → List Nat)
    (signature pfx : JString) : Except JString Signature :=
  if signature.take pfx.length = pfx then
    match base58decode (signature.drop pfx.length) with
    | Except.error e => Except.error e
    | Except.ok decoded =>
      if bufToHex (lastN 4 decoded) =
          bufToHex ((rip (dropLastN 4 decoded)).take 4) then
        Signature.fromBuffer (dropLastN 4 decoded)
      else
        Except.error ("Checksum did not match, ".data ++
          bufToHex (lastN 4 decoded) ++ " != ".data ++
          bufToHex ((rip (dropLastN 4 decoded)).take 4))
  else
    Except.error ("Expecting key to begin with ".data ++ pfx ++
      ", instead got ".data ++ pfx)

/-- Embeds `Signature.fromString`: the lenient wrapper that converts any
`fromStringOrThrow` failure into `null`. -/
def Signature.fromString (rip : List Nat → List Nat)
    (signature pfx : JString) : Option Signature :=
  match Signature.fromStringOrThrow rip signature pfx with
  | Except.ok s => some s
  | Except.error _ => none

theorem toStringRuns_some (rip : List Nat → List Nat) (sig : Signature)
    (c : JString) : ∀ ps, Signature.toStringRuns rip sig (some c) ps =
      ps.map (fun p => p ++ c) := by
  intro ps
  induction ps with
  | nil => rfl
  | cons p t ih =>
    show (p ++ c) :: Signature.toStringRuns rip sig (some c) t = _
    rw [ih, List.map_cons]

/-- C10: every sequence of `toString` calls returns, for each call, its own
prefix followed by the one memoised base58 body
`base58(toBuffer ‖ ripemd160(toBuffer)[0..3])`; the cache (filled by the
first call, reused afterwards) never changes the observable result. -/
theorem c10_toString_cache_transparent (rip : List Nat → List Nat)
    (sig : Signature) (ps : List JString) :
    Signature.toStringRuns rip sig none ps =
      ps.map (fun p =>
        p ++ base58encode (sig.toBuffer ++ (rip sig.toBuffer).take 4)) := by
  cases ps with
  | nil => rfl
  | cons p t =>
    show (p ++ base58encode (sig.toBuffer ++ (rip sig.toBuffer).take 4)) ::
        Signature.toStringRuns rip sig
          (some (base58encode (sig.toBuffer ++ (rip sig.toBuffer).take 4))) t =
      _
    rw [toStringRuns_some, List.map_cons]

/-- C2: for every signature S with 32-byte-encodable r, s and valid stored
recovery byte (as produced by `sign`), and every prefix p and RIPEMD-160
adapter (any function returning at least 4 bytes), parsing `S.toString(p)`
with `fromStringOrThrow` succeeds and returns S — the base58-checksum text
encoding is lossless. -/
theorem c2_toString_fromStringOrThrow_roundtrip (rip : List Nat → List Nat)
    (S : Signature) (pfx : JString)
    (hlen : 4 ≤ (rip S.toBuffer).length)
    (hbytes : ∀ b ∈ rip S.toBuffer, b < 256)
    (hr : S.r < 2 ^ 256) (hs : S.s < 2 ^ 256)
    (h27 : 27 ≤ S.i) (h34 : S.i ≤ 34) :
    Signature.fromStringOrThrow rip
      (Signature.toString rip S none pfx).1 pfx = Except.ok S := by
  have hsmem : ∀ b ∈ S.toBuffer ++ (rip S.toBuffer).take 4, b < 256 := by
    intro b hb
    rcases List.mem_append.1 hb with hb | hb
    · exact Signature.toBuffer_bytes_lt S (by omega) b hb
    · exact hbytes b (List.mem_of_mem_take hb)
  have hslen : (S.toBuffer ++ (rip S.toBuffer).take 4).length = 69 := by
    rw [List.length_append, Signature.toBuffer_len65, List.length_take,
      Nat.min_eq_left hlen]
  have hdropl : dropLastN 4 (S.toBuffer ++ (rip S.toBuffer).take 4) =
      S.toBuffer := by
    unfold dropLastN
    rw [hslen]
    exact List.take_left' (Signature.toBuffer_len65 S)
  have hlastl : lastN 4 (S.toBuffer ++ (rip S.toBuffer).take 4) =
      (rip S.toBuffer).take 4 := by
    unfold lastN
    rw [hslen]
    exact List.drop_left' (Signature.toBuffer_len65 S)
  have hout : (Signature.toString rip S none pfx).1 =
      pfx ++ base58encode (S.toBuffer ++ (rip S.toBuffer).take 4) := rfl
  rw [hout]
  unfold Signature.fromStringOrThrow
  rw [List.take_left, if_pos rfl, List.drop_left, base58decode_encode _ hsmem]
  dsimp only
  rw [hlastl, hdropl, if_pos rfl]
  exact Signature.roundtrip_buffer S hr hs h27 h34

/-- Witness for C2 at the signature (1, 2, 31), prefix "EOS", and a constant
4-byte checksum adapter. -/
theorem c2_toString_fromStringOrThrow_roundtrip_witness :
    (4 ≤ ((fun _ : List Nat => [0, 0, 0, 0])
        (Signature.toBuffer ⟨1, 2, 31⟩)).length ∧
      (∀ b ∈ (fun _ : List Nat => [0, 0, 0, 0])
        (Signature.toBuffer ⟨1, 2, 31⟩), b < 256) ∧
      (1 : Nat) < 2 ^ 256 ∧ (2 : Nat) < 2 ^ 256 ∧ (27 ≤ 31 ∧ 31 ≤ 34)) ∧
    Signature.fromStringOrThrow (fun _ => [0, 0, 0, 0])
      (Signature.toString (fun _ => [0, 0, 0, 0]) ⟨1, 2, 31⟩ none
        ("EOS".data)).1 ("EOS".data) = Except.ok ⟨1, 2, 31⟩ :=
  ⟨⟨by decide, by decide, by norm_num, by norm_num, by norm_num⟩,
   c2_toString_fromStringOrThrow_roundtrip (fun _ => [0, 0, 0, 0]) ⟨1, 2, 31⟩
     ("EOS".data) (by decide) (by decide) (by norm_num) (by norm_num)
     (by norm_num) (by norm_num)⟩

/-- C7: `fromString` returns `null` exactly when `fromStringOrThrow` raises,
and the parsed signature otherwise — errors are swallowed, never
propagated. -/
theorem c7_fromString_swallows (rip : List Nat → List Nat) (t p : JString) :
    (∀ e, Signature.fromStringOrThrow rip t p = Except.error e →
      Signature.fromString rip t p = none) ∧
    (∀ S, Signature.fromStringOrThrow rip t p = Except.ok S →
      Signature.fromString rip t p = some S) := by
  constructor
  · intro e he
    unfold Signature.fromString
    rw [he]
  · intro S hS
    unfold Signature.fromString
    rw [hS]

/-- Witness for C7: on the text "XYZ..." with expected prefix "EOS" the strict
parser raises (prefix mismatch) and the lenient parser returns null. -/
theorem c7_fromString_swallows_witness :
    Signature.fromStringOrThrow (fun _ => []) ("XYZ".data) ("EOS".data) =
      Except.error ("Expecting key to begin with EOS, instead got EOS".data) ∧
    Signature.fromString (fun _ => []) ("XYZ".data) ("EOS".data) = none :=
  ⟨by decide,
   (c7_fromString_swallows (fun _ => []) ("XYZ".data) ("EOS".data)).1
     ("Expecting key to begin with EOS, instead got EOS".data) (by decide)⟩

/-- C8 (code bug evidence): on a text starting with "ABC" and expected prefix
"EOS", `fromStringOrThrow` does fail, but the message interpolates the
expected prefix twice — "Expecting key to begin with EOS, instead got EOS" —
and never mentions the actual prefix (no 'A' occurs in it), contradicting the
claim that the error names the actual prefix found. -/
theorem c8_prefix_error_never_names_actual :
    Signature.fromStringOrThrow (fun _ => []) ("ABCSIG".data) ("EOS".data) =
      Except.error ("Expecting key to begin with EOS, instead got EOS".data) ∧
    'A' ∉ ("Expecting key to begin with EOS, instead got EOS".data) := by
  constructor
  · decide
  · decide

/-- Hex digit value accepted by JS `Buffer.from(s, 'hex')` (either case). -/
def hexCharVal (c : Char) : Option Nat :=
  if hexDigitChars.indexOf c < 16 then some (hexDigitChars.indexOf c)
  else if ("ABCDEF".data).indexOf c < 6 then
    some (("ABCDEF".data).indexOf c + 10)
  else none

/-- Embeds `Buffer.from(hex, 'hex')`: consumes hex-digit pairs, stopping at
the first invalid pair or dangling character. -/
def hexToBytes : JString → List Nat
  | c1 :: c2 :: rest =>
    match hexCharVal c1, hexCharVal c2 with
    | some hi, some lo => (hi * 16 + lo) :: hexToBytes rest
    | _, _ => []
  | _ => []

/-- Embeds `Signature.fromHex`: decode hex, delegate to `fromBuffer`. -/
def Signature.fromHex (hex : JString) : Except JString Signature :=
  Signature.fromBuffer (hexToBytes hex)

/-- The shapes `Signature.from` dispatches on: null/undefined, a string, a
Buffer, or a record with `r`, `s`, `i` fields — represented by the truthiness
of each field, which is all the dispatch inspects before returning the record
as-is. -/
inductive JVal where
  | jsNull : JVal
  | jsStr (s : JString) : JVal
  | jsBuf (b : List Nat) : JVal
  | jsRec (tr ts ti : Bool) : JVal
deriving DecidableEq, Repr

/-- JS truthiness of the dispatched value (an empty string is falsy). -/
def jtruthy : JVal → Bool
  | .jsNull => false
  | .jsStr s => !s.isEmpty
  | .jsBuf _ => true
  | .jsRec _ _ _ => true

/-- Result of `Signature.from`: the input record returned as-is, or a
signature produced by one of the three parsers. -/
inductive FromRes where
  | orig (v : JVal) : FromRes
  | parsed (s : Signature) : FromRes
deriving DecidableEq, Repr

/-- The TypeError message raised by `Signature.from`. -/
def typeErrMsg : JString := "signature should be a hex string or buffer".data

/-- Embeds `Signature.from` (named `from'` because `from` is reserved in
Lean): a falsy input, or one matching no dispatch arm, or a string the
lenient parser rejects, raises TypeError; a record with truthy r, s, i is
returned as-is; a 130-character string goes through `fromHex`; any other
(truthy) string through `fromString` with the configured default prefix
`dfl`; a Buffer through `fromBuffer`.  Errors thrown inside
`fromHex`/`fromBuffer` propagate unchanged. -/
def Signature.from' (rip : List Nat → List Nat) (dfl : JString) (o : JVal) :
    Except JString FromRes :=
  if jtruthy o then
    match o with
    | .jsRec tr ts ti =>
      if tr && ts && ti then Except.ok (FromRes.orig (JVal.jsRec tr ts ti))
      else Except.error typeErrMsg
    | .jsStr s =>
      if s.length = 130 then
        match Signature.fromHex s with
        | Except.ok sig => Except.ok (FromRes.parsed sig)
        | Except.error e => Except.error e
      else
        match Signature.fromString rip s dfl with
        | some sig => Except.ok (FromRes.parsed sig)
        | none => Except.error typeErrMsg
    | .jsBuf b =>
      match Signature.fromBuffer b with
      | Except.ok sig => Except.ok (FromRes.parsed sig)
      | Except.error e => Except.error e
    | .jsNull => Except.error typeErrMsg
  else Except.error typeErrMsg

/-- The dispatch as the claim words it (the spec-side definition for the
refinement check): null/undefined is a TypeError; an all-truthy record is
returned as-is; a 130-character string takes the hex path; any other string
takes the prefixed base58 path (TypeError when the lenient parser rejects
it); a buffer takes the buffer path. -/
def sigFromSpec (rip : List Nat → List Nat) (dfl : JString) (o : JVal) :
    Except JString FromRes :=
  match o with
  | .jsNull => Except.error typeErrMsg
  | .jsRec tr ts ti =>
    if tr && ts && ti then Except.ok (FromRes.orig (JVal.jsRec tr ts ti))
    else Except.error typeErrMsg
  | .jsStr s =>
    if s.length = 130 then
      match Signature.fromHex s with
      | Except.ok sig => Except.ok (FromRes.parsed sig)
      | Except.error e => Except.error e
    else
      match Signature.fromString rip s dfl with
      | some sig => Except.ok (FromRes.parsed sig)
      | none => Except.error typeErrMsg
  | .jsBuf b =>
    match Signature.fromBuffer b with
    | Except.ok sig => Except.ok (FromRes.parsed sig)
    | Except.error e => Except.error e

/-- The lenient parser rejects the empty string for every prefix (either the
prefix check, the checksum check, or the 65-byte check fails). -/
theorem fromString_nil (rip : List Nat → List Nat) (p : JString) :
    Signature.fromString rip [] p = none := by
  unfold Signature.fromString Signature.fromStringOrThrow
  by_cases hp : ([] : JString).take p.length = p
  · rw [if_pos hp]
    rw [show ([] : JString).drop p.length = [] from List.drop_nil]
    rw [show base58decode [] = Except.ok [] from rfl]
    dsimp only
    by_cases hc : bufToHex (lastN 4 []) =
        bufToHex ((rip (dropLastN 4 [])).take 4)
    · rw [if_pos hc]
      rfl
    · rw [if_neg hc]
  · rw [if_neg hp]

/-- C9: `Signature.from` dispatches exactly as the spec describes — equal, as
functions of the input shape, to the spec-side dispatch `sigFromSpec` (the
empty string, which the code short-circuits as falsy, also yields the same
TypeError the spec-side fromString path yields). -/
theorem c9_from_dispatch (rip : List Nat → List Nat) (dfl : JString)
    (o : JVal) : Signature.from' rip dfl o = sigFromSpec rip dfl o := by
  cases o with
  | jsNull => rfl
  | jsBuf b => rfl
  | jsRec tr ts ti => rfl
  | jsStr s =>
    cases s with
    | nil =>
      show Except.error typeErrMsg = sigFromSpec rip dfl (JVal.jsStr [])
      unfold sigFromSpec
      dsimp only
      rw [if_neg (by decide : ¬ (([] : JString).length = 130)),
        fromString_nil]
    | cons c t => rfl
